import Mathlib

/-!
The program `secret.c` of reverse-password-check

A shallow embedding of `src/secret.c` and the properties of its password check.

Modelling conventions.

* A `char` is modelled by its byte value, a natural number below 256.  A store
  into a `char` object reduces the stored value modulo 256.
* A `char` array is a `List Nat`; its length is the size of the array.  An
  access outside the array is undefined behaviour in C and is the outcome
  `Exec.undefined` here.
* The loop of `main` whose bound is re-evaluated on every iteration is run with
  a step budget (`fuel`); running out of budget is the separate outcome
  `Exec.outOfFuel`, and the theorems show that a budget of 20 steps is enough.
* `strlen`, `strcmp`, `isspace` and the `%s` conversion of `scanf` are library
  functions; they are modelled after the C standard (C locale).
-/

namespace Secret

/-! ## Outcomes of running C code -/

/-- Outcome of running a fragment of the program. -/
inductive Exec (α : Type) where
  /-- Normal termination with a result. -/
  | done (a : α) : Exec α
  /-- An access outside an array: undefined behaviour in C. -/
  | undefined : Exec α
  /-- The step budget of the model ran out. -/
  | outOfFuel : Exec α
  deriving DecidableEq, Repr

/-- Sequencing: run `x`, then `f` on its result; a failure of `x` is kept. -/
def Exec.bind {α β : Type} (x : Exec α) (f : α → Exec β) : Exec β :=
  match x with
  | Exec.done a => f a
  | Exec.undefined => Exec.undefined
  | Exec.outOfFuel => Exec.outOfFuel

/-- The statement `buf[i] = v` on a `char` array: bounds-checked, the value is
reduced to a byte. -/
def store (buf : List Nat) (i : Nat) (v : Nat) : Exec (List Nat) :=
  if i < buf.length then Exec.done (buf.set i (v % 256)) else Exec.undefined

/-- The expression `buf[i]` on a `char` array: bounds-checked. -/
def load (buf : List Nat) (i : Nat) : Exec Nat :=
  match buf[i]? with
  | some v => Exec.done v
  | none => Exec.undefined

/-! ## Library functions -/

/-- The function `strlen`: the index of the first NUL byte; running off the end
of the array is undefined behaviour. -/
def strlen : List Nat → Exec Nat
  | [] => Exec.undefined
  | c :: s => if c = 0 then Exec.done 0 else (strlen s).bind (fun n => Exec.done (n + 1))

/-- The function `strcmp`: bytes are compared as `unsigned char` up to the first
difference or the common NUL; the result is the difference of the two bytes
that decide. -/
def strcmp : List Nat → List Nat → Exec Int
  | a :: s, b :: t =>
    if a ≠ b then Exec.done ((a : Int) - (b : Int))
    else if a = 0 then Exec.done 0
    else strcmp s t
  | _, _ => Exec.undefined

/-- The function `isspace` in the C locale: space, `\t`, `\n`, `\v`, `\f`, `\r`. -/
def isspace (c : Nat) : Bool :=
  c == 32 || (9 ≤ c && c ≤ 13)

/-- The token the `%s` conversion reads from the standard input: leading white
space is skipped, then the longest run of bytes that are not white space. -/
def scanToken (stdin : List Nat) : List Nat :=
  (stdin.dropWhile isspace).takeWhile (fun c => !isspace c)

/-- Successive stores of the bytes `bs` into `buf` from index `i` on. -/
def storeBytes (buf : List Nat) (i : Nat) : List Nat → Exec (List Nat)
  | [] => Exec.done buf
  | b :: bs => (store buf i b).bind (fun buf1 => storeBytes buf1 (i + 1) bs)

/-- The call `scanf("%s", buf)`: the token and a terminating NUL are stored from
`buf[0]` on, with no bound on the length; when the input holds no token,
nothing is stored. -/
def scanf_s (stdin : List Nat) (buf : List Nat) : Exec (List Nat) :=
  if scanToken stdin = [] then Exec.done buf
  else storeBytes buf 0 (scanToken stdin ++ [0])

/-! ## `encrypt_password` -/

/-- The nested function `get_char` (lines 7-11); the returned `int` expression is
converted to `char`. -/
def get_char (index : Int) : Nat :=
  if index < 26 then ((65 + index) % 256).toNat
  else if index < 52 then ((97 + (index - 26)) % 256).toNat
  else ((49 + (index - 52)) % 256).toNat

/-- The argument `(i * 7 + 3) % 62` of the call of `get_char` at line 14. -/
def class_index (i : Int) : Int :=
  Int.tmod (i * 7 + 3) 62

/-- The function `encrypt_password` (lines 4-17): the loop over `i = 0..4` stores
`get_char((i * 7 + 3) % 62) ^ 0x13` at `out[i]`, then `out[5] = 0`. -/
def encrypt_password (out : List Nat) : Exec (List Nat) :=
  ((List.range 5).foldl
    (fun acc i => acc.bind (fun o => store o i (Nat.xor (get_char (class_index (i : Int))) 0x13)))
    (Exec.done out)).bind
  (fun o => store o 5 0)

/-! ## `main` -/

/-- The masking loop of `main` (lines 27-29), entered at index `i`:
`for (; i < strlen(input); i++) input[i] ^= 0x13;`.  The bound `strlen(input)`
is evaluated again before every iteration, on the array as modified so far. -/
def mask_loop : Nat → Nat → List Nat → Exec (List Nat)
  | 0, _, _ => Exec.outOfFuel
  | fuel + 1, i, input =>
    (strlen input).bind (fun n =>
      if i < n then
        (load input i).bind (fun c =>
          (store input i (Nat.xor c 0x13)).bind (fun input1 =>
            mask_loop fuel (i + 1) input1))
      else Exec.done input)

/-- The masking loop of `main` from `i = 0`: the transformation of the input. -/
def mask_input (fuel : Nat) (input : List Nat) : Exec (List Nat) :=
  mask_loop fuel 0 input

/-- What a run of the program leaves behind: the text written to the standard
output and the exit status. -/
structure Outcome where
  stdout : String
  exitCode : Int
  deriving DecidableEq, Repr

/-- The function `main` (lines 19-38).  `input` and `pwd` are the initial
contents of the two uninitialised 20-byte arrays; `stdin` is the standard input.
Falling off the end of `main` returns 0. -/
def main (fuel : Nat) (stdin input pwd : List Nat) : Exec Outcome :=
  (scanf_s stdin input).bind (fun input1 =>
    (mask_input fuel input1).bind (fun input2 =>
      (encrypt_password pwd).bind (fun pwd1 =>
        (strcmp input2 pwd1).bind (fun r =>
          if r = 0 then
            Exec.done ⟨"Enter password: " ++ "Access granted\n", 0⟩
          else
            Exec.done ⟨"Enter password: " ++ "Access denied\n", 0⟩))))

/-- The plaintext password `"DKRYf"`. -/
def plaintext : List Nat := [0x44, 0x4B, 0x52, 0x59, 0x66]

/-- The masked reference `"WXAJu"`. -/
def reference : List Nat := [0x57, 0x58, 0x41, 0x4A, 0x75]

/-- The string held in a `char` array: the bytes before the first NUL. -/
def cstr (buf : List Nat) : List Nat :=
  buf.takeWhile (fun b => b ≠ 0)

/-- Closed form of the masking loop on the part of the array from the loop
index on: bytes are masked up to the first NUL, and the loop also stops right
after a byte that it has turned into NUL. -/
def maskSpec : List Nat → List Nat
  | [] => []
  | b :: t =>
    if b = 0 then b :: t
    else if (Nat.xor b 0x13) % 256 = 0 then 0 :: t
    else (Nat.xor b 0x13) % 256 :: maskSpec t

/-! ## Basic facts about the memory model -/

theorem bind_done {α β : Type} (a : α) (f : α → Exec β) : (Exec.done a).bind f = f a := rfl

theorem store_at (pre : List Nat) (b : Nat) (post : List Nat) (v : Nat) :
    store (pre ++ b :: post) pre.length v = Exec.done (pre ++ (v % 256) :: post) := by
  simp [store]

theorem load_at (pre : List Nat) (b : Nat) (post : List Nat) :
    load (pre ++ b :: post) pre.length = Exec.done b := by
  have h : (pre ++ b :: post)[pre.length]? = some b := by
    rw [List.getElem?_append_right (Nat.le_refl _)]
    simp
  unfold load
  rw [h]

theorem store_outside (buf : List Nat) (i v : Nat) (h : buf.length ≤ i) :
    store buf i v = Exec.undefined := by
  simp [store, Nat.not_lt.mpr h]

theorem store_length (buf buf1 : List Nat) (i v : Nat) (h : store buf i v = Exec.done buf1) :
    buf1.length = buf.length := by
  unfold store at h
  split at h
  · cases h; simp
  · cases h

theorem storeBytes_at : ∀ (bs old pre post : List Nat), old.length = bs.length →
    storeBytes (pre ++ old ++ post) pre.length bs
      = Exec.done (pre ++ bs.map (fun b => b % 256) ++ post)
  | [], old, pre, post, h => by
    have : old = [] := List.length_eq_zero.mp (by simpa using h)
    subst this
    simp [storeBytes]
  | b :: bs, [], pre, post, h => by simp at h
  | b :: bs, o :: old, pre, post, h => by
    have h1 : old.length = bs.length := by simpa using h
    have e1 : pre ++ o :: old ++ post = pre ++ o :: (old ++ post) := by simp
    have e2 : pre ++ (b % 256) :: (old ++ post) = (pre ++ [b % 256]) ++ old ++ post := by simp
    have ih := storeBytes_at bs old (pre ++ [b % 256]) post h1
    rw [storeBytes, e1, store_at, bind_done, e2]
    have e3 : pre.length + 1 = (pre ++ [b % 256]).length := by simp
    rw [e3, ih]
    simp

theorem storeBytes_overflow : ∀ (bs buf : List Nat) (i : Nat), i ≤ buf.length →
    buf.length < i + bs.length → storeBytes buf i bs = Exec.undefined
  | [], buf, i, hle, h => by
    simp at h
    omega
  | b :: bs, buf, i, hle, h => by
    rw [storeBytes]
    by_cases hi : i < buf.length
    · have hs : store buf i b = Exec.done (buf.set i (b % 256)) := by simp [store, hi]
      rw [hs, bind_done]
      apply storeBytes_overflow
      · simp only [List.length_set]
        omega
      · simp only [List.length_set, List.length_cons] at h ⊢
        omega
    · rw [store_outside buf i b (Nat.le_of_not_lt hi)]
      rfl

/-! ## The library functions on strings held in an array -/

theorem strlen_at : ∀ (p t : List Nat), (∀ b ∈ p, b ≠ 0) →
    strlen (p ++ 0 :: t) = Exec.done p.length
  | [], t, _ => by simp [strlen]
  | c :: p, t, h => by
    have hc : c ≠ 0 := h c (by simp)
    have ih := strlen_at p t (fun b hb => h b (by simp [hb]))
    simp [strlen, hc, ih, bind_done]

theorem exists_nul_split : ∀ (s : List Nat), 0 ∈ s →
    ∃ p t, s = p ++ 0 :: t ∧ ∀ b ∈ p, b ≠ 0
  | [], h => by simp at h
  | c :: s, h => by
    by_cases hc : c = 0
    · exact ⟨[], s, by simp [hc], by simp⟩
    · have hs : 0 ∈ s := by
        rcases List.mem_cons.mp h with h0 | h0
        · exact absurd h0.symm hc
        · exact h0
      obtain ⟨p, t, e, hp⟩ := exists_nul_split s hs
      refine ⟨c :: p, t, by simp [e], ?_⟩
      intro b hb
      rcases List.mem_cons.mp hb with h0 | h0
      · exact h0 ▸ hc
      · exact hp b h0

theorem strcmp_defined : ∀ (a b : List Nat), 0 ∈ a → 0 ∈ b → ∃ r, strcmp a b = Exec.done r
  | [], _, ha, _ => by simp at ha
  | _ :: _, [], _, hb => by simp at hb
  | x :: a, y :: b, ha, hb => by
    by_cases hxy : x = y
    · by_cases hx : x = 0
      · exact ⟨0, by simp [strcmp, hxy, hx ▸ hxy.symm]⟩
      · have hy : y ≠ 0 := hxy ▸ hx
        have ha1 : 0 ∈ a := by
          rcases List.mem_cons.mp ha with h0 | h0
          · exact absurd h0.symm hx
          · exact h0
        have hb1 : 0 ∈ b := by
          rcases List.mem_cons.mp hb with h0 | h0
          · exact absurd h0.symm hy
          · exact h0
        obtain ⟨r, hr⟩ := strcmp_defined a b ha1 hb1
        refine ⟨r, ?_⟩
        rw [strcmp]
        simp [hxy, hy, hr]
    · exact ⟨(x : Int) - (y : Int), by simp [strcmp, hxy]⟩

/-! ## The masking loop -/

theorem maskSpec_nul : ∀ (s : List Nat), 0 ∈ s → 0 ∈ maskSpec s
  | [], h => by simp at h
  | c :: s, h => by
    unfold maskSpec
    by_cases hc : c = 0
    · simp [hc]
    · have hs : 0 ∈ s := by
        rcases List.mem_cons.mp h with h0 | h0
        · exact absurd h0.symm hc
        · exact h0
      by_cases hx : (Nat.xor c 0x13) % 256 = 0
      · simp [hc, hx]
      · simp [hc, hx, maskSpec_nul s hs]

theorem maskSpec_length : ∀ (s : List Nat), (maskSpec s).length = s.length
  | [] => rfl
  | c :: s => by
    unfold maskSpec
    by_cases hc : c = 0
    · simp [hc]
    · by_cases hx : (Nat.xor c 0x13) % 256 = 0
      · simp [hc, hx]
      · simp [hc, hx, maskSpec_length s]

theorem mask_loop_spec : ∀ (mid pre tail : List Nat) (fuel : Nat),
    (∀ b ∈ pre, b ≠ 0) → (∀ b ∈ mid, b ≠ 0) → mid.length < fuel →
    mask_loop fuel pre.length (pre ++ mid ++ 0 :: tail)
      = Exec.done (pre ++ maskSpec (mid ++ 0 :: tail))
  | [], pre, tail, fuel, hpre, _, hf => by
    obtain ⟨k, rfl⟩ : ∃ k, fuel = k + 1 := ⟨fuel - 1, by simp at hf; omega⟩
    rw [mask_loop]
    simp [strlen_at pre tail hpre, bind_done, maskSpec]
  | c :: mid, pre, tail, fuel, hpre, hmid, hf => by
    obtain ⟨k, rfl⟩ : ∃ k, fuel = k + 1 := ⟨fuel - 1, by simp at hf; omega⟩
    have hk : mid.length < k := by simp at hf; omega
    have hc : c ≠ 0 := hmid c (by simp)
    have hmid1 : ∀ b ∈ mid, b ≠ 0 := fun b hb => hmid b (by simp [hb])
    have hlen : strlen (pre ++ (c :: mid) ++ 0 :: tail)
        = Exec.done (pre ++ c :: mid).length := by
      have h := strlen_at (pre ++ c :: mid) tail (by
        intro b hb
        rcases List.mem_append.mp hb with h0 | h0
        · exact hpre b h0
        · exact hmid b h0)
      simpa using h
    have e1 : pre ++ (c :: mid) ++ 0 :: tail = pre ++ c :: (mid ++ 0 :: tail) := by simp
    have hlt : pre.length < (pre ++ c :: mid).length := by simp
    rw [mask_loop, hlen, bind_done, if_pos hlt, e1, load_at, bind_done, store_at, bind_done]
    by_cases hv : (Nat.xor c 0x13) % 256 = 0
    · obtain ⟨j, rfl⟩ : ∃ j, k = j + 1 := ⟨k - 1, by omega⟩
      rw [hv, mask_loop, strlen_at pre (mid ++ 0 :: tail) hpre, bind_done,
        if_neg (by omega)]
      simp [maskSpec, hc, hv]
    · have hpre1 : ∀ b ∈ pre ++ [(Nat.xor c 0x13) % 256], b ≠ 0 := by
        intro b hb
        rcases List.mem_append.mp hb with h0 | h0
        · exact hpre b h0
        · simp at h0
          rw [h0]
          exact hv
      have ih := mask_loop_spec mid (pre ++ [(Nat.xor c 0x13) % 256]) tail k hpre1 hmid1 hk
      have e2 : pre ++ (Nat.xor c 0x13) % 256 :: (mid ++ 0 :: tail)
          = pre ++ [(Nat.xor c 0x13) % 256] ++ mid ++ 0 :: tail := by simp
      have e3 : pre.length + 1 = (pre ++ [(Nat.xor c 0x13) % 256]).length := by simp
      rw [e2, e3, ih]
      simp [maskSpec, hc, hv]

theorem mask_input_spec (s : List Nat) (fuel : Nat) (h0 : 0 ∈ s) (hf : s.length ≤ fuel) :
    mask_input fuel s = Exec.done (maskSpec s) := by
  obtain ⟨p, t, rfl, hp⟩ := exists_nul_split s h0
  have h := mask_loop_spec p [] t fuel (by simp) hp (by simp at hf; omega)
  simpa [mask_input] using h

/-! ## `scanf` and `encrypt_password` -/

theorem scanf_s_fits (stdin buf : List Nat) (hne : scanToken stdin ≠ [])
    (hlen : (scanToken stdin).length < buf.length) :
    scanf_s stdin buf = Exec.done
      ((scanToken stdin).map (fun b => b % 256) ++ 0 :: buf.drop ((scanToken stdin).length + 1)) := by
  have hsplit : buf = [] ++ buf.take ((scanToken stdin).length + 1)
      ++ buf.drop ((scanToken stdin).length + 1) := by simp
  have hold : (buf.take ((scanToken stdin).length + 1)).length
      = (scanToken stdin ++ [0]).length := by
    simp [List.length_take]
    omega
  have h := storeBytes_at (scanToken stdin ++ [0]) (buf.take ((scanToken stdin).length + 1))
    [] (buf.drop ((scanToken stdin).length + 1)) hold
  rw [← hsplit] at h
  simp only [scanf_s, if_neg hne]
  simpa using h

theorem scanf_s_overflow (stdin buf : List Nat) (hlen : buf.length ≤ (scanToken stdin).length)
    (hne : scanToken stdin ≠ []) : scanf_s stdin buf = Exec.undefined := by
  simp only [scanf_s, if_neg hne]
  apply storeBytes_overflow
  · omega
  · simp
    omega

theorem encrypt_password_spec (out : List Nat) (h : 6 ≤ out.length) :
    encrypt_password out = Exec.done (reference ++ 0 :: out.drop 6) := by
  match out, h with
  | a :: b :: c :: d :: e :: f :: t, _ =>
    simp [encrypt_password, List.range, List.range.loop, store, Exec.bind, reference]
    decide

/-! ## The password check -/

/-- C1: when the token read from the standard input is the plaintext password,
that is the first five bytes of the reference written by `encrypt_password`, each
XORed with 0x13 (the string "DKRYf"), `main` prints "Access granted". -/
theorem main_plaintext_granted (fuel : Nat) (stdin input pwd ref : List Nat)
    (hfuel : 20 ≤ fuel) (hin : input.length = 20) (hpwd : pwd.length = 20)
    (href : encrypt_password pwd = Exec.done ref)
    (htok : scanToken stdin = (ref.take 5).map (fun b => Nat.xor b 0x13)) :
    scanToken stdin = [0x44, 0x4B, 0x52, 0x59, 0x66] ∧
    main fuel stdin input pwd = Exec.done ⟨"Enter password: Access granted\n", 0⟩ := by
  have hspec := encrypt_password_spec pwd (by omega)
  have hr : ref = reference ++ 0 :: pwd.drop 6 := by
    rw [hspec] at href
    cases href
    rfl
  have htok1 : scanToken stdin = plaintext := by
    rw [htok, hr]
    rfl
  refine ⟨htok1, ?_⟩
  have hscan := scanf_s_fits stdin input (by rw [htok1]; decide) (by rw [htok1, hin]; decide)
  rw [htok1] at hscan
  have hmask : mask_input fuel (plaintext.map (fun b => b % 256) ++ 0 :: input.drop (plaintext.length + 1))
      = Exec.done (reference ++ 0 :: input.drop 6) := by
    rw [mask_input_spec _ fuel (by simp) (by simp [plaintext, hin]; omega)]
    rfl
  rw [main, hscan, bind_done, hmask, bind_done, hspec, bind_done]
  simp [reference, strcmp, Exec.bind]

theorem main_plaintext_granted_witness :
    scanToken ([32, 10] ++ [0x44, 0x4B, 0x52, 0x59, 0x66] ++ [10, 65])
      = [0x44, 0x4B, 0x52, 0x59, 0x66] ∧
    main 20 ([32, 10] ++ [0x44, 0x4B, 0x52, 0x59, 0x66] ++ [10, 65])
      (List.replicate 20 0xAA) (List.replicate 20 0x55)
      = Exec.done ⟨"Enter password: Access granted\n", 0⟩ :=
  main_plaintext_granted 20 ([32, 10] ++ [0x44, 0x4B, 0x52, 0x59, 0x66] ++ [10, 65])
    (List.replicate 20 0xAA) (List.replicate 20 0x55)
    ([0x57, 0x58, 0x41, 0x4A, 0x75, 0] ++ List.replicate 14 0x55)
    (by decide) (by decide) (by decide) (by decide) (by decide)

/-- C2 (the code departs from the claim): the token "DKRYf" followed by the byte
0x13 fits the buffer, holds no white space and no NUL, is not the plaintext
password, and its bytes XORed with 0x13 are not the reference; `main` still
prints "Access granted". -/
theorem main_grants_longer_token :
    scanToken [0x44, 0x4B, 0x52, 0x59, 0x66, 0x13, 10] = [0x44, 0x4B, 0x52, 0x59, 0x66, 0x13] ∧
    (∀ b ∈ [0x44, 0x4B, 0x52, 0x59, 0x66, 0x13], b ≠ 0 ∧ isspace b = false ∧ b < 256) ∧
    [0x44, 0x4B, 0x52, 0x59, 0x66, 0x13] ≠ plaintext ∧
    [0x44, 0x4B, 0x52, 0x59, 0x66, 0x13].map (fun b => Nat.xor b 0x13) ≠ reference ∧
    encrypt_password (List.replicate 20 0x55)
      = Exec.done (reference ++ 0 :: List.replicate 14 0x55) ∧
    main 20 [0x44, 0x4B, 0x52, 0x59, 0x66, 0x13, 10]
      (List.replicate 20 0xAA) (List.replicate 20 0x55)
      = Exec.done ⟨"Enter password: Access granted\n", 0⟩ := by
  decide

/-- C3: `encrypt_password` terminates on every array of at least six bytes; the
byte it leaves at `out[i]`, for `i = 0..4`, is the character `get_char` returns
for `(i * 7 + 3) % 62`, XORed with 0x13; `out[5]` is NUL; and `out[0..4]` is the
byte sequence 0x57 0x58 0x41 0x4A 0x75 ("WXAJu"). -/
theorem encrypt_password_bytes (out : List Nat) (h : 6 ≤ out.length) :
    ∃ r, encrypt_password out = Exec.done r ∧
      (∀ i : Nat, i < 5 →
        r[i]? = some (Nat.xor (get_char (Int.tmod ((i : Int) * 7 + 3) 62)) 0x13)) ∧
      r[5]? = some 0 ∧
      r.take 5 = [0x57, 0x58, 0x41, 0x4A, 0x75] ∧
      r.take 5 = "WXAJu".toList.map Char.toNat := by
  refine ⟨_, encrypt_password_spec out h, ?_, ?_, ?_, ?_⟩
  · intro i hi
    have hi5 : i = 0 ∨ i = 1 ∨ i = 2 ∨ i = 3 ∨ i = 4 := by omega
    rcases hi5 with rfl | rfl | rfl | rfl | rfl <;> simp [reference] <;> decide
  · simp [reference]
  · simp [reference]
  · simp [reference]

theorem encrypt_password_bytes_witness :
    ∃ r, encrypt_password (List.replicate 20 0x55) = Exec.done r ∧
      (∀ i : Nat, i < 5 →
        r[i]? = some (Nat.xor (get_char (Int.tmod ((i : Int) * 7 + 3) 62)) 0x13)) ∧
      r[5]? = some 0 ∧
      r.take 5 = [0x57, 0x58, 0x41, 0x4A, 0x75] ∧
      r.take 5 = "WXAJu".toList.map Char.toNat :=
  encrypt_password_bytes (List.replicate 20 0x55) (by decide)

/-- C4: for positions 0 to 4 the class indices computed by `encrypt_password` are
3, 10, 17, 24, 31; the characters `get_char` returns for them begin
'D', 'K', 'R', 'Y' (the fifth is 'f'); and these are the reference bytes XORed
with 0x13. -/
theorem class_indices_and_chars (out : List Nat) (h : 6 ≤ out.length) :
    (List.range 5).map (fun i => class_index (i : Int)) = [3, 10, 17, 24, 31] ∧
    [3, 10, 17, 24].map get_char = ['D', 'K', 'R', 'Y'].map Char.toNat ∧
    get_char 31 = 'f'.toNat ∧
    ∃ r, encrypt_password out = Exec.done r ∧
      (r.take 5).map (fun b => Nat.xor b 0x13)
        = (List.range 5).map (fun i => get_char (class_index (i : Int))) := by
  refine ⟨by decide, by decide, by decide, _, encrypt_password_spec out h, ?_⟩
  simp [reference]
  decide

theorem class_indices_and_chars_witness :
    (List.range 5).map (fun i => class_index (i : Int)) = [3, 10, 17, 24, 31] ∧
    [3, 10, 17, 24].map get_char = ['D', 'K', 'R', 'Y'].map Char.toNat ∧
    get_char 31 = 'f'.toNat ∧
    ∃ r, encrypt_password (List.replicate 20 0) = Exec.done r ∧
      (r.take 5).map (fun b => Nat.xor b 0x13)
        = (List.range 5).map (fun i => get_char (class_index (i : Int))) :=
  class_indices_and_chars (List.replicate 20 0) (by decide)

/-- C5 (the code departs from the claim): for the token "a", 0x13, "b" the
masking loop applied twice does not give the buffer back, neither as an array
nor as the string it holds: the first pass turns the byte 0x13 into NUL and
stops, the second pass sees the one-byte string. -/
theorem mask_twice_differs :
    scanf_s [0x61, 0x13, 0x62, 10] (List.replicate 20 0xAA)
      = Exec.done ([0x61, 0x13, 0x62, 0] ++ List.replicate 16 0xAA) ∧
    mask_input 20 ([0x61, 0x13, 0x62, 0] ++ List.replicate 16 0xAA)
      = Exec.done ([0x72, 0, 0x62, 0] ++ List.replicate 16 0xAA) ∧
    mask_input 20 ([0x72, 0, 0x62, 0] ++ List.replicate 16 0xAA)
      = Exec.done ([0x61, 0, 0x62, 0] ++ List.replicate 16 0xAA) ∧
    [0x61, 0, 0x62, 0] ++ List.replicate 16 0xAA
      ≠ [0x61, 0x13, 0x62, 0] ++ List.replicate 16 0xAA ∧
    cstr ([0x61, 0, 0x62, 0] ++ List.replicate 16 0xAA)
      ≠ cstr ([0x61, 0x13, 0x62, 0] ++ List.replicate 16 0xAA) := by
  decide

/-- C6 (the code departs from the claim): for the token "a", 0x13, "b" the
masking loop leaves the third byte as it was, and the string left in the buffer
has length 1, not 3. -/
theorem mask_stops_early :
    cstr ([0x61, 0x13, 0x62, 0] ++ List.replicate 16 0xAA) = [0x61, 0x13, 0x62] ∧
    mask_input 20 ([0x61, 0x13, 0x62, 0] ++ List.replicate 16 0xAA)
      = Exec.done ([0x72, 0, 0x62, 0] ++ List.replicate 16 0xAA) ∧
    ([0x72, 0, 0x62, 0] ++ List.replicate 16 0xAA).take 3
      ≠ [0x61, 0x13, 0x62].map (fun b => Nat.xor b 0x13) ∧
    ([0x72, 0, 0x62, 0] ++ List.replicate 16 0xAA)[2]? = some 0x62 ∧
    Nat.xor 0x62 0x13 = 0x71 ∧
    (cstr ([0x72, 0, 0x62, 0] ++ List.replicate 16 0xAA)).length = 1 := by
  decide

/-- C7: `encrypt_password` is deterministic: for any two initial contents of the
output buffer the six bytes `out[0..5]` it leaves are the same, the five
reference bytes and the terminator. -/
theorem encrypt_password_deterministic (out1 out2 : List Nat)
    (h1 : 6 ≤ out1.length) (h2 : 6 ≤ out2.length) :
    ∃ r1 r2, encrypt_password out1 = Exec.done r1 ∧ encrypt_password out2 = Exec.done r2 ∧
      r1.take 6 = r2.take 6 ∧ r1.take 6 = [0x57, 0x58, 0x41, 0x4A, 0x75, 0] := by
  refine ⟨_, _, encrypt_password_spec out1 h1, encrypt_password_spec out2 h2, ?_, ?_⟩ <;>
    simp [reference]

theorem encrypt_password_deterministic_witness :
    ∃ r1 r2, encrypt_password (List.replicate 20 0) = Exec.done r1 ∧
      encrypt_password (List.range 20) = Exec.done r2 ∧
      r1.take 6 = r2.take 6 ∧ r1.take 6 = [0x57, 0x58, 0x41, 0x4A, 0x75, 0] :=
  encrypt_password_deterministic (List.replicate 20 0) (List.range 20) (by decide) (by decide)

/-- C8: for every token that fits the buffer (1 to 19 bytes), `main` terminates
with exit status 0, and what it prints after the prompt "Enter password: " is
"Access granted" or "Access denied" followed by a newline, one of the two and
not both. -/
theorem main_prints_one_verdict (fuel : Nat) (stdin input pwd : List Nat)
    (hfuel : 20 ≤ fuel) (hin : input.length = 20) (hpwd : pwd.length = 20)
    (hlo : 1 ≤ (scanToken stdin).length) (hhi : (scanToken stdin).length ≤ 19) :
    ∃ verdict, main fuel stdin input pwd
        = Exec.done ⟨"Enter password: " ++ verdict, 0⟩ ∧
      (verdict = "Access granted\n" ∨ verdict = "Access denied\n") ∧
      ¬ (verdict = "Access granted\n" ∧ verdict = "Access denied\n") := by
  have hne : scanToken stdin ≠ [] := by
    intro h
    rw [h] at hlo
    simp at hlo
  have hscan := scanf_s_fits stdin input hne (by omega)
  have hspec := encrypt_password_spec pwd (by omega)
  have hmask := mask_input_spec
    ((scanToken stdin).map (fun b => b % 256) ++ 0 :: input.drop ((scanToken stdin).length + 1))
    fuel (by simp) (by simp [hin]; omega)
  obtain ⟨r, hr⟩ := strcmp_defined
    (maskSpec ((scanToken stdin).map (fun b => b % 256)
      ++ 0 :: input.drop ((scanToken stdin).length + 1)))
    (reference ++ 0 :: pwd.drop 6) (maskSpec_nul _ (by simp)) (by simp)
  rw [main, hscan, bind_done, hmask, bind_done, hspec, bind_done, hr, bind_done]
  by_cases h0 : r = 0
  · exact ⟨"Access granted\n", by rw [if_pos h0], Or.inl rfl, by decide⟩
  · exact ⟨"Access denied\n", by rw [if_neg h0], Or.inr rfl, by decide⟩

theorem main_prints_one_verdict_witness :
    ∃ verdict, main 20 [0x61, 0x13, 0x62, 10] (List.replicate 20 0xAA) (List.replicate 20 0x55)
        = Exec.done ⟨"Enter password: " ++ verdict, 0⟩ ∧
      (verdict = "Access granted\n" ∨ verdict = "Access denied\n") ∧
      ¬ (verdict = "Access granted\n" ∧ verdict = "Access denied\n") :=
  main_prints_one_verdict 20 [0x61, 0x13, 0x62, 10] (List.replicate 20 0xAA)
    (List.replicate 20 0x55) (by decide) (by decide) (by decide) (by decide) (by decide)

/-- C9 as stated fails: for a token of 20 bytes `scanf` stores the terminating NUL
at `input[20]`, outside the array; there is no defined outcome of `main`, in
particular no error report. -/
theorem main_long_token_not_rejected :
    (scanToken (List.replicate 20 0x41 ++ [10])).length = 20 ∧
    scanf_s (List.replicate 20 0x41 ++ [10]) (List.replicate 20 0xAA) = Exec.undefined ∧
    ¬ ∃ o, main 20 (List.replicate 20 0x41 ++ [10])
      (List.replicate 20 0xAA) (List.replicate 20 0x55) = Exec.done o := by
  refine ⟨by decide, by decide, ?_⟩
  have h : main 20 (List.replicate 20 0x41 ++ [10])
      (List.replicate 20 0xAA) (List.replicate 20 0x55) = Exec.undefined := by decide
  rw [h]
  rintro ⟨o, ho⟩
  cases ho

/-- C9 (amended): `main` has no length check.  For every token longer than 19
bytes the call of `scanf` stores past the end of the 20-byte array `input`,
which is undefined behaviour: `main` has no defined outcome, whatever the step
budget and the contents of the arrays. -/
theorem main_long_token_undefined (fuel : Nat) (stdin input pwd : List Nat)
    (hin : input.length = 20) (hlong : 19 < (scanToken stdin).length) :
    scanf_s stdin input = Exec.undefined ∧ main fuel stdin input pwd = Exec.undefined := by
  have hne : scanToken stdin ≠ [] := by
    intro h
    rw [h] at hlong
    simp at hlong
  have hscan := scanf_s_overflow stdin input (by omega) hne
  refine ⟨hscan, ?_⟩
  rw [main, hscan]
  rfl

theorem main_long_token_undefined_witness :
    scanf_s (List.replicate 25 0x42) (List.replicate 20 0) = Exec.undefined ∧
    main 7 (List.replicate 25 0x42) (List.replicate 20 0) (List.replicate 20 1)
      = Exec.undefined :=
  main_long_token_undefined 7 (List.replicate 25 0x42) (List.replicate 20 0)
    (List.replicate 20 1) (by decide) (by decide)

/-- C10: for every class index `n` with `0 ≤ n ≤ 61`, `get_char n` is `'A' + n` when
`n` is in 0..25, `'a' + (n - 26)` when `n` is in 26..51, and `'1' + (n - 52)` when
`n` is in 52..61. -/
theorem get_char_classes (n : Int) (h0 : 0 ≤ n) (h1 : n ≤ 61) :
    (n ≤ 25 → (get_char n : Int) = ('A'.toNat : Int) + n) ∧
    (26 ≤ n → n ≤ 51 → (get_char n : Int) = ('a'.toNat : Int) + (n - 26)) ∧
    (52 ≤ n → (get_char n : Int) = ('1'.toNat : Int) + (n - 52)) := by
  have hA : 'A'.toNat = 65 := rfl
  have ha : 'a'.toNat = 97 := rfl
  have h1c : '1'.toNat = 49 := rfl
  rw [hA, ha, h1c]
  unfold get_char
  refine ⟨?_, ?_, ?_⟩
  · intro h
    rw [if_pos (by omega)]
    omega
  · intro hl hu
    rw [if_neg (by omega), if_pos (by omega)]
    omega
  · intro hl
    rw [if_neg (by omega), if_neg (by omega)]
    omega

theorem get_char_classes_witness :
    (get_char 61 : Int) = ('1'.toNat : Int) + (61 - 52) :=
  (get_char_classes 61 (by decide) (by decide)).2.2 (by decide)

/-! ## Bytes under the mask -/

theorem xor_byte_mod (b : Nat) (h : b < 256) : Nat.xor b 0x13 % 256 = Nat.xor b 0x13 :=
  Nat.mod_eq_of_lt (@Nat.xor_lt_two_pow b 0x13 8 h (by decide))

theorem xor_byte_eq_zero (b : Nat) : Nat.xor b 0x13 = 0 ↔ b = 0x13 :=
  Nat.xor_eq_zero

theorem xor_byte_cancel (b : Nat) : Nat.xor (Nat.xor b 0x13) 0x13 = b :=
  Nat.xor_cancel_right 0x13 b

theorem xor_byte_eq_iff (b c : Nat) : Nat.xor b 0x13 = c ↔ b = Nat.xor c 0x13 := by
  constructor
  · intro h
    rw [← h, xor_byte_cancel]
  · intro h
    rw [h, xor_byte_cancel]

theorem done_sub_eq_zero (x y : Nat) :
    (Exec.done ((x : Int) - (y : Int)) : Exec Int) = Exec.done 0 ↔ x = y := by
  constructor
  · intro h
    injection h with h
    omega
  · intro h
    rw [h]
    simp

theorem maskSpec_cons (b : Nat) (t : List Nat) (h0 : b ≠ 0) (h256 : b < 256) :
    maskSpec (b :: t) = if b = 0x13 then 0 :: t else Nat.xor b 0x13 :: maskSpec t := by
  rw [maskSpec, if_neg h0, xor_byte_mod b h256]
  by_cases h : b = 0x13
  · rw [if_pos ((xor_byte_eq_zero b).mpr h), if_pos h]
  · rw [if_neg (fun hx => h ((xor_byte_eq_zero b).mp hx)), if_neg h]

/-- The comparison of a masked string with a string `r`: it finds them equal
exactly when the unmasked bytes of `r` are the whole input or are followed in the
input by the byte 0x13. -/
theorem strcmp_mask_iff : ∀ (r t g p : List Nat), (∀ c ∈ r, c ≠ 0) →
    (∀ b ∈ t, b ≠ 0 ∧ b < 256) →
    (strcmp (maskSpec (t ++ 0 :: g)) (r ++ 0 :: p) = Exec.done 0 ↔
      (t = r.map (fun c => Nat.xor c 0x13) ∨
        ∃ rest, t = r.map (fun c => Nat.xor c 0x13) ++ 0x13 :: rest))
  | [], [], g, p, _, _ => by
    simp [maskSpec, strcmp]
  | [], b :: t, g, p, _, ht => by
    have hb := ht b (by simp)
    rw [List.cons_append, maskSpec_cons b _ hb.1 hb.2]
    by_cases h : b = 0x13
    · rw [if_pos h]
      simp [strcmp, h]
    · rw [if_neg h]
      have hx : Nat.xor b 0x13 ≠ 0 := fun hx => h ((xor_byte_eq_zero b).mp hx)
      simp [strcmp, hx, h]
  | c :: r, [], g, p, hr, _ => by
    have hc : c ≠ 0 := hr c (by simp)
    have hc1 : ¬ (0 = c) := fun h => hc h.symm
    simp [maskSpec, strcmp, hc1]
    omega
  | c :: r, b :: t, g, p, hr, ht => by
    have hc : c ≠ 0 := hr c (by simp)
    have hb := ht b (by simp)
    have ih := strcmp_mask_iff r t g p (fun x hx => hr x (by simp [hx]))
      (fun x hx => ht x (by simp [hx]))
    rw [List.cons_append, List.cons_append, maskSpec_cons b _ hb.1 hb.2]
    by_cases h : b = 0x13
    · have hne : ¬ (b = Nat.xor c 0x13) := by
        intro he
        rw [← xor_byte_eq_iff] at he
        rw [h] at he
        exact hc he.symm
      have hc1 : ¬ (0 = c) := fun h0 => hc h0.symm
      rw [if_pos h, strcmp, if_pos hc1]
      simp [hne]
      omega
    · rw [if_neg h, strcmp]
      by_cases he : Nat.xor b 0x13 = c
      · have hb1 : b = Nat.xor c 0x13 := (xor_byte_eq_iff b c).mp he
        rw [if_neg (by simpa using he), if_neg (by rw [he]; exact hc), ih]
        simp [hb1]
      · have hb1 : ¬ (b = Nat.xor c 0x13) := fun h1 => he ((xor_byte_eq_iff b c).mpr h1)
        rw [if_pos he, done_sub_eq_zero]
        simp [he, hb1]

theorem maskSpec_stop : ∀ (pre rest : List Nat), (∀ b ∈ pre, b ≠ 0 ∧ b < 256) → 0x13 ∉ pre →
    maskSpec (pre ++ 0x13 :: rest) = pre.map (fun b => Nat.xor b 0x13) ++ 0 :: rest
  | [], rest, _, _ => by
    rw [List.nil_append, maskSpec_cons 0x13 rest (by decide) (by decide)]
    simp
  | b :: pre, rest, hpre, h13 => by
    have hb := hpre b (by simp)
    have hne : b ≠ 0x13 := fun h => h13 (by simp [h])
    have ih := maskSpec_stop pre rest (fun x hx => hpre x (by simp [hx]))
      (fun h => h13 (by simp [h]))
    rw [List.cons_append, maskSpec_cons b _ hb.1 hb.2, if_neg hne, ih]
    simp

theorem map_mod_bytes (t : List Nat) (h : ∀ b ∈ t, b ≠ 0 ∧ b < 256) :
    t.map (fun b => b % 256) = t := by
  have e : t.map (fun b => b % 256) = t.map id :=
    List.map_congr_left (fun b hb => Nat.mod_eq_of_lt (h b hb).2)
  rw [e, List.map_id]

/-- The run of `main` up to the comparison, for a token that fits the buffer. -/
theorem main_eq_verdict (fuel : Nat) (stdin input pwd : List Nat)
    (hfuel : 20 ≤ fuel) (hin : input.length = 20) (hpwd : pwd.length = 20)
    (hlo : 1 ≤ (scanToken stdin).length) (hhi : (scanToken stdin).length ≤ 19)
    (hbytes : ∀ b ∈ scanToken stdin, b ≠ 0 ∧ b < 256) :
    (scanf_s stdin input).bind (mask_input fuel)
      = Exec.done (maskSpec (scanToken stdin ++ 0 :: input.drop ((scanToken stdin).length + 1))) ∧
    ∃ r, strcmp (maskSpec (scanToken stdin ++ 0 :: input.drop ((scanToken stdin).length + 1)))
        (reference ++ 0 :: pwd.drop 6) = Exec.done r ∧
      main fuel stdin input pwd =
        if r = 0 then Exec.done ⟨"Enter password: Access granted\n", 0⟩
        else Exec.done ⟨"Enter password: Access denied\n", 0⟩ := by
  have hne : scanToken stdin ≠ [] := by
    intro h
    rw [h] at hlo
    simp at hlo
  have hscan := scanf_s_fits stdin input hne (by omega)
  rw [map_mod_bytes _ hbytes] at hscan
  have hspec := encrypt_password_spec pwd (by omega)
  have hmask := mask_input_spec
    (scanToken stdin ++ 0 :: input.drop ((scanToken stdin).length + 1))
    fuel (by simp) (by simp [hin]; omega)
  obtain ⟨r, hr⟩ := strcmp_defined
    (maskSpec (scanToken stdin ++ 0 :: input.drop ((scanToken stdin).length + 1)))
    (reference ++ 0 :: pwd.drop 6) (maskSpec_nul _ (by simp)) (by simp)
  refine ⟨by rw [hscan, bind_done, hmask], r, hr, ?_⟩
  rw [main, hscan, bind_done, hmask, bind_done, hspec, bind_done, hr, bind_done]
  rfl

theorem encrypt_password_short (out : List Nat) (h : out.length < 6) :
    encrypt_password out = Exec.undefined := by
  match out, h with
  | [], _ => rfl
  | [_], _ => rfl
  | [_, _], _ => rfl
  | [_, _, _], _ => rfl
  | [_, _, _, _], _ => rfl
  | [_, _, _, _, _], _ => rfl

/-! ## Character classes, the accepted tokens, and the frame of `encrypt_password` -/

/-- C11 as stated fails: `get_char` maps the class index 61 to '1' + 9, the
character ':' (0x3A), which is not a decimal digit; so it is not true that every
class index in 52..61 is mapped to a digit '0'..'9'. -/
theorem get_char_61_not_digit :
    get_char 61 = ':'.toNat ∧
    ¬ ('0'.toNat ≤ get_char 61 ∧ get_char 61 ≤ '9'.toNat) ∧
    (Char.ofNat (get_char 61)).isDigit = false ∧
    ¬ (∀ n : Int, 0 ≤ n → n ≤ 61 →
        (n ≤ 25 → 'A'.toNat ≤ get_char n ∧ get_char n ≤ 'Z'.toNat) ∧
        (26 ≤ n → n ≤ 51 → 'a'.toNat ≤ get_char n ∧ get_char n ≤ 'z'.toNat) ∧
        (52 ≤ n → '0'.toNat ≤ get_char n ∧ get_char n ≤ '9'.toNat)) := by
  refine ⟨by decide, by decide, by decide, ?_⟩
  intro h
  have h61 := (h 61 (by decide) (by decide)).2.2 (by decide)
  revert h61
  decide

/-- C11 (amended): `get_char` maps every class index in 0..25 to an ASCII
upper-case letter, every class index in 26..51 to an ASCII lower-case letter,
every class index in 52..60 to an ASCII decimal digit (one of '1'..'9', never
'0'), and the class index 61 to the character ':'. -/
theorem get_char_char_classes (n : Int) (h0 : 0 ≤ n) (h1 : n ≤ 61) :
    (n ≤ 25 → 'A'.toNat ≤ get_char n ∧ get_char n ≤ 'Z'.toNat) ∧
    (26 ≤ n → n ≤ 51 → 'a'.toNat ≤ get_char n ∧ get_char n ≤ 'z'.toNat) ∧
    (52 ≤ n → n ≤ 60 →
      '1'.toNat ≤ get_char n ∧ get_char n ≤ '9'.toNat ∧
      (Char.ofNat (get_char n)).isDigit = true) ∧
    (n = 61 → get_char n = ':'.toNat) ∧
    get_char n ≠ '0'.toNat := by
  obtain ⟨k, rfl⟩ : ∃ k : Nat, n = (k : Int) := ⟨n.toNat, by omega⟩
  have hk : k < 62 := by omega
  clear h0 h1
  revert k
  decide

theorem get_char_char_classes_witness :
    ((60 : Int) ≤ 25 → 'A'.toNat ≤ get_char 60 ∧ get_char 60 ≤ 'Z'.toNat) ∧
    (26 ≤ (60 : Int) → (60 : Int) ≤ 51 → 'a'.toNat ≤ get_char 60 ∧ get_char 60 ≤ 'z'.toNat) ∧
    (52 ≤ (60 : Int) → (60 : Int) ≤ 60 →
      '1'.toNat ≤ get_char 60 ∧ get_char 60 ≤ '9'.toNat ∧
      (Char.ofNat (get_char 60)).isDigit = true) ∧
    ((60 : Int) = 61 → get_char 60 = ':'.toNat) ∧
    get_char 60 ≠ '0'.toNat :=
  get_char_char_classes 60 (by decide) (by decide)

/-- C12: the masking loop stops at the first input byte equal to 0x13, which it
turns into NUL; and for every token of 1 to 19 bytes without NUL (the bytes of a
token are never white space), `main` prints "Access granted" if and only if the
token is "DKRYf" or begins with "DKRYf" immediately followed by the byte 0x13,
and prints "Access denied" otherwise. -/
theorem main_granted_iff (fuel : Nat) (stdin input pwd : List Nat)
    (hfuel : 20 ≤ fuel) (hin : input.length = 20) (hpwd : pwd.length = 20)
    (hlo : 1 ≤ (scanToken stdin).length) (hhi : (scanToken stdin).length ≤ 19)
    (hbytes : ∀ b ∈ scanToken stdin, b ≠ 0 ∧ b < 256) :
    (main fuel stdin input pwd = Exec.done ⟨"Enter password: Access granted\n", 0⟩ ↔
      (scanToken stdin = [0x44, 0x4B, 0x52, 0x59, 0x66] ∨
        ∃ rest, scanToken stdin = [0x44, 0x4B, 0x52, 0x59, 0x66] ++ 0x13 :: rest)) ∧
    (main fuel stdin input pwd = Exec.done ⟨"Enter password: Access denied\n", 0⟩ ↔
      ¬ (scanToken stdin = [0x44, 0x4B, 0x52, 0x59, 0x66] ∨
        ∃ rest, scanToken stdin = [0x44, 0x4B, 0x52, 0x59, 0x66] ++ 0x13 :: rest)) ∧
    (∀ pre rest, scanToken stdin = pre ++ 0x13 :: rest → 0x13 ∉ pre →
      (scanf_s stdin input).bind (mask_input fuel)
        = Exec.done (pre.map (fun b => Nat.xor b 0x13) ++ 0 :: rest
            ++ 0 :: input.drop ((scanToken stdin).length + 1))) := by
  obtain ⟨hrun, r, hr, hmain⟩ :=
    main_eq_verdict fuel stdin input pwd hfuel hin hpwd hlo hhi hbytes
  have hiff := strcmp_mask_iff reference (scanToken stdin)
    (input.drop ((scanToken stdin).length + 1)) (pwd.drop 6) (by decide) hbytes
  have hplain : reference.map (fun c => Nat.xor c 0x13) = [0x44, 0x4B, 0x52, 0x59, 0x66] := by
    decide
  rw [hplain, hr] at hiff
  have hr0 : r = 0 ↔ (scanToken stdin = [0x44, 0x4B, 0x52, 0x59, 0x66] ∨
      ∃ rest, scanToken stdin = [0x44, 0x4B, 0x52, 0x59, 0x66] ++ 0x13 :: rest) := by
    rw [← hiff]
    constructor
    · intro h
      rw [h]
    · intro h
      injection h
  refine ⟨?_, ?_, ?_⟩
  · rw [hmain, ← hr0]
    by_cases h0 : r = 0
    · simp [h0]
    · simp only [if_neg h0, h0, iff_false]
      decide
  · rw [hmain, ← hr0]
    by_cases h0 : r = 0
    · simp only [if_pos h0, h0, not_true_eq_false, iff_false]
      decide
    · simp [h0]
  · intro pre rest htok h13
    rw [hrun]
    have hpre : ∀ b ∈ pre, b ≠ 0 ∧ b < 256 := by
      intro b hb
      exact hbytes b (by rw [htok]; simp [hb])
    have e : scanToken stdin ++ 0 :: input.drop ((scanToken stdin).length + 1)
        = pre ++ 0x13 :: (rest ++ 0 :: input.drop ((scanToken stdin).length + 1)) := by
      rw [htok]
      simp
    rw [e, maskSpec_stop pre _ hpre h13]
    simp

theorem main_granted_iff_witness :
    (main 20 [0x44, 0x4B, 0x52, 0x59, 0x66, 0x13, 0x41, 10]
        (List.replicate 20 0xAA) (List.replicate 20 0x55)
        = Exec.done ⟨"Enter password: Access granted\n", 0⟩ ↔
      (scanToken [0x44, 0x4B, 0x52, 0x59, 0x66, 0x13, 0x41, 10] = [0x44, 0x4B, 0x52, 0x59, 0x66] ∨
        ∃ rest, scanToken [0x44, 0x4B, 0x52, 0x59, 0x66, 0x13, 0x41, 10]
          = [0x44, 0x4B, 0x52, 0x59, 0x66] ++ 0x13 :: rest)) ∧
    (main 20 [0x44, 0x4B, 0x52, 0x59, 0x66, 0x13, 0x41, 10]
        (List.replicate 20 0xAA) (List.replicate 20 0x55)
        = Exec.done ⟨"Enter password: Access denied\n", 0⟩ ↔
      ¬ (scanToken [0x44, 0x4B, 0x52, 0x59, 0x66, 0x13, 0x41, 10] = [0x44, 0x4B, 0x52, 0x59, 0x66] ∨
        ∃ rest, scanToken [0x44, 0x4B, 0x52, 0x59, 0x66, 0x13, 0x41, 10]
          = [0x44, 0x4B, 0x52, 0x59, 0x66] ++ 0x13 :: rest)) ∧
    (∀ pre rest, scanToken [0x44, 0x4B, 0x52, 0x59, 0x66, 0x13, 0x41, 10] = pre ++ 0x13 :: rest →
      0x13 ∉ pre →
      (scanf_s [0x44, 0x4B, 0x52, 0x59, 0x66, 0x13, 0x41, 10] (List.replicate 20 0xAA)).bind
          (mask_input 20)
        = Exec.done (pre.map (fun b => Nat.xor b 0x13) ++ 0 :: rest
            ++ 0 :: (List.replicate 20 0xAA).drop
              ((scanToken [0x44, 0x4B, 0x52, 0x59, 0x66, 0x13, 0x41, 10]).length + 1))) :=
  main_granted_iff 20 [0x44, 0x4B, 0x52, 0x59, 0x66, 0x13, 0x41, 10]
    (List.replicate 20 0xAA) (List.replicate 20 0x55)
    (by decide) (by decide) (by decide) (by decide) (by decide) (by decide)

/-- C13: none of the five reference bytes written by `encrypt_password` is NUL, so
`strlen` of the reference is 5; none of the five plaintext bytes (the reference
bytes XORed with 0x13) is white space, NUL or 0x13, so `scanf` reads the
plaintext password as one token and the loop of `main` masks all five bytes,
leaving the reference in the input buffer. -/
theorem reference_bytes_nonzero (fuel : Nat) (out g rest : List Nat)
    (h : 6 ≤ out.length) (hfuel : 20 ≤ fuel) (hg : g.length = 14) :
    ∃ r, encrypt_password out = Exec.done r ∧
      (∀ b ∈ r.take 5, b ≠ 0) ∧
      strlen r = Exec.done 5 ∧
      (∀ b ∈ (r.take 5).map (fun b => Nat.xor b 0x13),
        isspace b = false ∧ b ≠ 0 ∧ b ≠ 0x13) ∧
      scanToken ((r.take 5).map (fun b => Nat.xor b 0x13))
        = (r.take 5).map (fun b => Nat.xor b 0x13) ∧
      scanToken ((r.take 5).map (fun b => Nat.xor b 0x13) ++ 10 :: rest)
        = (r.take 5).map (fun b => Nat.xor b 0x13) ∧
      mask_input fuel ((r.take 5).map (fun b => Nat.xor b 0x13) ++ 0 :: g)
        = Exec.done (r.take 5 ++ 0 :: g) := by
  have htake : (reference ++ 0 :: out.drop 6).take 5 = reference := by simp [reference]
  refine ⟨_, encrypt_password_spec out h, ?_, ?_, ?_, ?_, ?_, ?_⟩
  · rw [htake]
    decide
  · exact strlen_at reference (out.drop 6) (by decide)
  · rw [htake]
    decide
  · rw [htake]
    decide
  · rw [htake]
    rfl
  · rw [htake, mask_input_spec _ fuel (by simp) (by simp [reference, hg]; omega)]
    rfl

theorem reference_bytes_nonzero_witness :
    ∃ r, encrypt_password (List.replicate 20 0x55) = Exec.done r ∧
      (∀ b ∈ r.take 5, b ≠ 0) ∧
      strlen r = Exec.done 5 ∧
      (∀ b ∈ (r.take 5).map (fun b => Nat.xor b 0x13),
        isspace b = false ∧ b ≠ 0 ∧ b ≠ 0x13) ∧
      scanToken ((r.take 5).map (fun b => Nat.xor b 0x13))
        = (r.take 5).map (fun b => Nat.xor b 0x13) ∧
      scanToken ((r.take 5).map (fun b => Nat.xor b 0x13) ++ 10 :: [0x41, 0x42])
        = (r.take 5).map (fun b => Nat.xor b 0x13) ∧
      mask_input 20 ((r.take 5).map (fun b => Nat.xor b 0x13) ++ 0 :: List.replicate 14 0xAA)
        = Exec.done (r.take 5 ++ 0 :: List.replicate 14 0xAA) :=
  reference_bytes_nonzero 20 (List.replicate 20 0x55) (List.replicate 14 0xAA) [0x41, 0x42]
    (by decide) (by decide) (by decide)

/-- C14: for every `i` in 0..4, `i * 7 + 3` is less than 52, so the reduction modulo
62 leaves it unchanged, `get_char` does not reach its third branch, and the
character it returns is an ASCII letter. -/
theorem class_index_below_52 (i : Int) (h0 : 0 ≤ i) (h4 : i ≤ 4) :
    i * 7 + 3 < 52 ∧
    class_index i = i * 7 + 3 ∧
    ¬ (52 ≤ class_index i) ∧
    get_char (class_index i)
      = (if class_index i < 26 then ((65 + class_index i) % 256).toNat
         else ((97 + (class_index i - 26)) % 256).toNat) ∧
    (('A'.toNat ≤ get_char (class_index i) ∧ get_char (class_index i) ≤ 'Z'.toNat) ∨
      ('a'.toNat ≤ get_char (class_index i) ∧ get_char (class_index i) ≤ 'z'.toNat)) := by
  have hi : i = 0 ∨ i = 1 ∨ i = 2 ∨ i = 3 ∨ i = 4 := by omega
  rcases hi with rfl | rfl | rfl | rfl | rfl <;> decide

theorem class_index_below_52_witness :
    (4 : Int) * 7 + 3 < 52 ∧
    class_index 4 = 4 * 7 + 3 ∧
    ¬ (52 ≤ class_index 4) ∧
    get_char (class_index 4)
      = (if class_index 4 < 26 then ((65 + class_index 4) % 256).toNat
         else ((97 + (class_index 4 - 26)) % 256).toNat) ∧
    (('A'.toNat ≤ get_char (class_index 4) ∧ get_char (class_index 4) ≤ 'Z'.toNat) ∨
      ('a'.toNat ≤ get_char (class_index 4) ∧ get_char (class_index 4) ≤ 'z'.toNat)) :=
  class_index_below_52 4 (by decide) (by decide)

/-- C15: on the 20-byte array `pwd` that `main` passes, `encrypt_password` performs
all its stores within bounds, changes no byte outside the indices 0..5, and
leaves the bytes at the indices 6..19 as they were; an array shorter than six
bytes would be overrun. -/
theorem encrypt_password_frame (out : List Nat) (h : out.length = 20) :
    (∃ r, encrypt_password out = Exec.done r ∧
      r.length = 20 ∧
      r.drop 6 = out.drop 6 ∧
      (∀ j, 6 ≤ j → j < 20 → r[j]? = out[j]?) ∧
      (∀ j, r[j]? ≠ out[j]? → j < 6)) ∧
    (∀ short : List Nat, short.length < 6 → encrypt_password short = Exec.undefined) := by
  have hget : ∀ j, 6 ≤ j → (reference ++ 0 :: out.drop 6)[j]? = out[j]? := by
    intro j hj
    obtain ⟨k, rfl⟩ : ∃ k, j = 6 + k := ⟨j - 6, by omega⟩
    have e : reference ++ 0 :: out.drop 6 = (reference ++ [0]) ++ out.drop 6 := by simp
    rw [e, List.getElem?_append_right (by simp [reference])]
    simp [reference]
  refine ⟨⟨_, encrypt_password_spec out (by omega), ?_, ?_, ?_, ?_⟩, encrypt_password_short⟩
  · simp [reference, h]
  · have e : reference ++ 0 :: out.drop 6 = (reference ++ [0]) ++ out.drop 6 := by simp
    rw [e, List.drop_append_of_le_length (by simp [reference])]
    simp [reference]
  · intro j hj _
    exact hget j hj
  · intro j hne
    by_contra hj
    exact hne (hget j (by omega))

theorem encrypt_password_frame_witness :
    (∃ r, encrypt_password (List.range 20) = Exec.done r ∧
      r.length = 20 ∧
      r.drop 6 = (List.range 20).drop 6 ∧
      (∀ j, 6 ≤ j → j < 20 → r[j]? = (List.range 20)[j]?) ∧
      (∀ j, r[j]? ≠ (List.range 20)[j]? → j < 6)) ∧
    (∀ short : List Nat, short.length < 6 → encrypt_password short = Exec.undefined) :=
  encrypt_password_frame (List.range 20) (by decide)

end Secret

